import Mathlib

/-!
# Verification of the codebase-mcp Bundle Parsing & Extraction Engine

Shallow embedding of the text-processing core of `src/tools/codebase.ts`:
the bundle tokenizer, path normalizer, lookup, snippet extractor, report
section extractor and ignore-pattern loader.  JavaScript strings are
modelled as `List Char`; each JS string operation used by the source
(`split("\n")`, `join`, `trim`, `slice`, `includes`, `indexOf`,
`startsWith`, `toLowerCase`, `replace`) is given an explicit executable
definition on `List Char` mirroring its ECMAScript behaviour on the
inputs the program can produce (lines never contain a newline character).
-/

namespace CB

/-- JS whitespace test as used by `String.prototype.trim` (ASCII part,
which is all the engine's data contains). -/
def isWS (c : Char) : Bool :=
  c == ' ' || c == '\t' || c == '\n' || c == '\r'

/-- Left part of JS `trim`: drop leading whitespace. -/
def trimL (l : List Char) : List Char := l.dropWhile isWS

/-- Right part of JS `trim`: drop trailing whitespace. -/
def trimR (l : List Char) : List Char := ((l.reverse).dropWhile isWS).reverse

/-- JS `String.prototype.trim`: drop whitespace at both ends. -/
def jsTrim (l : List Char) : List Char := trimR (trimL l)

/-- Boolean list-prefix test (JS `String.prototype.startsWith`). -/
def pre : List Char → List Char → Bool
  | [], _ => true
  | _ :: _, [] => false
  | a :: ps, b :: ls => a == b && pre ps ls

/-- JS `String.prototype.includes`: substring occurrence test. -/
def hasSub : List Char → List Char → Bool
  | pat, [] => pat.isEmpty
  | pat, c :: rest => pre pat (c :: rest) || hasSub pat rest

/-- First index at which `pat` occurs (JS `indexOf`, `none` for -1). -/
def idxOf : List Char → List Char → Option Nat
  | pat, [] => if pat.isEmpty then some 0 else none
  | pat, c :: rest =>
    if pre pat (c :: rest) then some 0
    else (idxOf pat rest).map (· + 1)

/-- JS `split("\n")`: cut at every newline, keeping empty chunks
(the empty string splits to one empty chunk). -/
def splitNL : List Char → List (List Char)
  | [] => [[]]
  | c :: rest =>
    if c == '\n' then [] :: splitNL rest
    else
      match splitNL rest with
      | s :: ss => (c :: s) :: ss
      | [] => [[c]]

/-- JS `Array.prototype.join("\n")`. -/
def joinNL : List (List Char) → List Char
  | [] => []
  | [l] => l
  | l :: ls => l ++ '\n' :: joinNL ls

/-- JS `Array.prototype.find`: first element satisfying the predicate. -/
def jsFind (p : α → Bool) : List α → Option α
  | [] => none
  | a :: as => if p a then some a else jsFind p as

/-! ## Bundle tokenizer (codebase.ts lines 428–459) -/

/-- One reconstructed file block: `{ path, content }` of the source. -/
structure FileRecord where
  path : List Char
  content : List (List Char)
deriving DecidableEq, Repr

/-- The line-match `/^<file path="(.+?)">$/` of codebase.ts line 436: the
line is exactly `<file path="` ++ X ++ `">` with X non-empty; the lazy
group together with both anchors captures everything between the fixed
bracket pieces.  Returns the captured group. -/
def matchXmlOpen (l : List Char) : Option (List Char) :=
  if pre ("<file path=\"".data) l && pre ("\">".data.reverse) l.reverse
      && decide (15 ≤ l.length)
  then some ((l.drop 12).take (l.length - 14))
  else none

/-- The line-match `/^# File: (.+)$/` of codebase.ts line 443: the line
starts with `# File: ` and has a non-empty remainder, which is captured. -/
def matchHashOpen (l : List Char) : Option (List Char) :=
  if pre ("# File: ".data) l && decide (9 ≤ l.length)
  then some (l.drop 8)
  else none

/-- The line-match `/^<\/file>$/` of codebase.ts line 450. -/
def isCloseLine (l : List Char) : Bool :=
  l == ("</file>".data)

/-- A line that opens or closes a record (any of the three matchers). -/
def isDelimLine (l : List Char) : Bool :=
  (matchXmlOpen l).isSome || (matchHashOpen l).isSome || isCloseLine l

/-- The seal `if (currentFile) fileBlocks.push(currentFile)` of the source. -/
def sealInto (blocks : List FileRecord) : Option FileRecord → List FileRecord
  | some r => blocks ++ [r]
  | none => blocks

/-- The scan loop of codebase.ts lines 433–458: per line, try the XML
opening tag, then the heading form, then the closing tag; otherwise the
line is content of the open record (or discarded). -/
def tokenizeLoop : List (List Char) → Option FileRecord → List FileRecord → List FileRecord
  | [], cur, blocks => sealInto blocks cur
  | line :: rest, cur, blocks =>
    match matchXmlOpen line with
    | some p => tokenizeLoop rest (some ⟨jsTrim p, []⟩) (sealInto blocks cur)
    | none =>
      match matchHashOpen line with
      | some p => tokenizeLoop rest (some ⟨jsTrim p, []⟩) (sealInto blocks cur)
      | none =>
        if isCloseLine line then tokenizeLoop rest none (sealInto blocks cur)
        else
          match cur with
          | some r => tokenizeLoop rest (some ⟨r.path, r.content ++ [line]⟩) blocks
          | none => tokenizeLoop rest none blocks

/-- The whole `parse(rawText) -> BundleIndex`: split the dump into lines and run the
scan loop (codebase.ts lines 428–459, including the final seal). -/
def parseBundle (raw : List Char) : List FileRecord :=
  tokenizeLoop (splitNL raw) none []

/-! ## Path normalization and lookup (codebase.ts lines 462–475) -/

/-- The replacement `p.replace` with pattern `/^\.\//`: strip one leading `./` (anchored, so it
fires only at the very start, before any trimming). -/
def stripDotSlash (p : List Char) : List Char :=
  if pre ("./".data) p then p.drop 2 else p

/-- The `normalizePath` of codebase.ts lines 462–464: strip a leading `./`,
replace every backslash by a forward slash, then trim. -/
def normalizePath (p : List Char) : List Char :=
  jsTrim ((stripDotSlash p).map (fun c => if c == '\\' then '/' else c))

/-- JS `String.prototype.toLowerCase` (ASCII; `Char.toLower` agrees on
every character the engine compares). -/
def lower (l : List Char) : List Char := l.map Char.toLower

/-- The lookup of codebase.ts lines 468–475: exact normalized match via
`Array.find`, then a case-insensitive fallback `Array.find`. -/
def findRecord (blocks : List FileRecord) (file : List Char) : Option FileRecord :=
  let requested := normalizePath file
  match jsFind (fun f => normalizePath f.path == requested) blocks with
  | some r => some r
  | none =>
      jsFind (fun f => lower (normalizePath f.path) == lower requested) blocks

/-! ## Snippet extractor (codebase.ts lines 488–499) -/

/-- JS `Array.prototype.slice(0, end)` with a possibly negative `end`:
a negative end counts from the end of the array (clamped at 0). -/
def jsSliceTo (l : List (List Char)) (e : Int) : List (List Char) :=
  if e < 0 then l.take (l.length - e.natAbs) else l.take e.toNat

/-- One iteration of the loop at codebase.ts line 492: the rendering
`` ` ${i + 1}: ${line}\n` `` of the line numbered `n` (1-based). -/
def renderLine (n : Nat) (l : List Char) : List Char :=
  ' ' :: ((Nat.repr n).data ++ ':' :: ' ' :: (l ++ ['\n']))

/-- The whole accumulation loop of codebase.ts lines 491–493, rendering
lines numbered from `k + 1` upward. -/
def snippetOf : Nat → List (List Char) → List Char
  | _, [] => []
  | k, l :: ls => renderLine (k + 1) l ++ snippetOf (k + 1) ls

/-- The extractor: slice off the first `maxLines` content lines, render them
with 1-based numbers, and `trim` the result (codebase.ts lines 488–492
and the `snippet.trim()` of line 499). -/
def extract (r : FileRecord) (maxLines : Int) : List Char :=
  jsTrim (snippetOf 0 (jsSliceTo r.content maxLines))

/-- The handler default `maxLines ?? 40` (codebase.ts line 488, together
with the zod default of 40 at line 402). -/
def extractDefaulted (r : FileRecord) (maxLines : Option Int) : List Char :=
  extract r (maxLines.getD 40)

/-! ## Report section extractor (codebase.ts lines 112–151) -/

/-- The banner filter of codebase.ts lines 113–122: a line is noise when
it contains any of the promotional substrings (the third one
case-insensitively). -/
def noiseLine (l : List Char) : Bool :=
  hasSub ("Repomix is now available".data) l
    || hasSub ("https://repomix.com".data) l
    || hasSub ("repomix".data) (lower l)
    || hasSub ("Pack your codebase into AI-friendly formats".data) l

/-- The `filtered` text of codebase.ts lines 112–122: split into lines, drop noise
lines, rejoin with newlines and trim. -/
def noiseFilter (raw : List Char) : List Char :=
  jsTrim (joinNL ((splitNL raw).filter (fun l => !noiseLine l)))

/-- The marker "Pack Summary:". -/
def packMarker : List Char := "Pack Summary:".data

/-- The marker "Total Files:". -/
def totalMarker : List Char := "Total Files:".data

/-- The regex search `/(Pack Summary:|Total Files:)/` of codebase.ts line
143: scan left to right; at the first position where either alternative
matches, return the alternative that matched (left one preferred). -/
def altFirst : List Char → Option (List Char)
  | [] => none
  | c :: rest =>
    if pre packMarker (c :: rest) then some packMarker
    else if pre totalMarker (c :: rest) then some totalMarker
    else altFirst rest

/-- JS `String.prototype.slice(start)` with a possibly negative start. -/
def jsSliceFrom (l : List Char) (s : Int) : List Char :=
  if s < 0 then l.drop (l.length - s.natAbs) else l.drop s.toNat

/-- JS `indexOf` as an `Int` (-1 when absent), as used at line 145. -/
def jsIndexOf (pat l : List Char) : Int :=
  match idxOf pat l with
  | some i => (i : Int)
  | none => -1

/-- JS `Array.prototype.slice(-n)`: the last `n` elements. -/
def lastN (n : Nat) (ls : List (List Char)) : List (List Char) :=
  ls.drop (ls.length - n)

/-- The summary selection of codebase.ts lines 141–151: if either marker
matches, everything from its first occurrence onward, trimmed; otherwise
the last 20 lines of the trimmed text, rejoined. -/
def summaryBlock (filtered : List Char) : List Char :=
  match altFirst filtered with
  | some m => jsTrim (jsSliceFrom filtered (jsIndexOf m filtered))
  | none => joinNL (lastN 20 (splitNL (jsTrim filtered)))

/-! ## Ignore-pattern loader (codebase.ts lines 32–41) -/

/-- JS `Array.prototype.join(",")`. -/
def joinComma : List (List Char) → List Char
  | [] => []
  | [l] => l
  | l :: ls => l ++ ',' :: joinComma ls

/-- The line filter of codebase.ts line 38: keep a (trimmed) line when it
is non-empty (truthy) and does not start with `#`. -/
def keepIgnoreLine (l : List Char) : Bool :=
  !l.isEmpty && !pre (['#']) l

/-- The loader `getCodebaseIgnoreGlobs` applied to the text of an existing
`.codebaseignore` file (codebase.ts lines 35–40): split on newlines, trim
each line, drop blanks and `#`-comments; `none` when nothing remains,
otherwise the comma-joined remainder. -/
def ignoreGlobs (content : List Char) : Option (List Char) :=
  let lines := ((splitNL content).map jsTrim).filter keepIgnoreLine
  if lines.length = 0 then none else some (joinComma lines)

/-! ## The searchCodebase boundary (codebase.ts lines 404–513)

The file system is modelled as an association list from path to file
text; `fs.existsSync`/`fs.readFileSync` become a lookup in it.  The
handler itself is pure, so the embedding is a total function returning
the response text. -/

/-- A file system snapshot: the files that exist, with their contents. -/
def Fs : Type := List (List Char × List Char)

/-- The pair `fs.existsSync` + `fs.readFileSync` combined: the content of the
named file when it exists. -/
def fsRead (fs : Fs) (name : List Char) : Option (List Char) :=
  match jsFind (fun e => e.1 == name) fs with
  | some e => some e.2
  | none => none

/-- The arguments of the `searchCodebase` tool (codebase.ts 399–403). -/
structure SearchArgs where
  file : List Char
  codebase : Option (List Char)
  maxLines : Option Int
deriving Repr

/-- The success wrapper of codebase.ts line 499:
`<file path="{path}">\n{snippet.trim()}\n</file>`. -/
def wrapSnippet (path body : List Char) : List Char :=
  ("<file path=\"".data) ++ path ++ ("\">".data) ++ '\n' :: body
    ++ '\n' :: ("</file>".data)

/-- JS `a || d` on an optional string: the default replaces both an
absent and an empty (falsy) value. -/
def jsOrDefault (o : Option (List Char)) (d : List Char) : List Char :=
  match o with
  | some c => if c.isEmpty then d else c
  | none => d

/-- The `searchCodebase` handler body (codebase.ts lines 404–502): check
the codebase file exists, check `file` is truthy, parse the bundle, look
the file up, and either report a message or return the wrapped snippet. -/
def searchCodebase (fs : Fs) (args : SearchArgs) : List Char :=
  let codebaseFile := jsOrDefault args.codebase ("project.codebase".data)
  match fsRead fs codebaseFile with
  | none => ("Codebase file not found: ".data) ++ codebaseFile
  | some raw =>
    if args.file.isEmpty then
      "Parameter \x27file\x27 is required.".data
    else
      match findRecord (parseBundle raw) args.file with
      | none =>
          ("File \"".data) ++ args.file ++ ("\" not found in codebase.".data)
      | some found =>
          wrapSnippet found.path (extractDefaulted found args.maxLines)

/-! ## Basic lemmas -/

theorem pre_self_append (a t : List Char) : pre a (a ++ t) = true := by
  induction a with
  | nil => rfl
  | cons c cs ih => simp [pre, ih]

theorem dropWhile_cons_false {p : Char → Bool} {c : Char} {l : List Char}
    (h : p c = false) : (c :: l).dropWhile p = c :: l := by
  simp [List.dropWhile, h]

theorem trimL_cons_space (l : List Char) : trimL (' ' :: l) = trimL l := by
  simp [trimL, List.dropWhile, isWS]

theorem trimL_cons_false {c : Char} {l : List Char} (h : isWS c = false) :
    trimL (c :: l) = c :: l := by
  simp [trimL, List.dropWhile, h]

theorem dropWhile_dropWhile (p : Char → Bool) (l : List Char) :
    (l.dropWhile p).dropWhile p = l.dropWhile p := by
  induction l with
  | nil => rfl
  | cons c cs ih =>
    by_cases h : p c
    · simp [List.dropWhile, h, ih]
    · simp [List.dropWhile, h]

theorem trimR_eq_nil_or_head (l : List Char) :
    trimR l = [] ∨ (∃ t, trimR l ++ t = l) := by
  right
  have h := List.takeWhile_append_dropWhile (p := isWS) (l := l.reverse)
  refine ⟨(l.reverse.takeWhile isWS).reverse, ?_⟩
  show (l.reverse.dropWhile isWS).reverse ++ (l.reverse.takeWhile isWS).reverse = l
  rw [← List.reverse_append, h, List.reverse_reverse]

theorem trimL_of_head_ok {l : List Char}
    (h : l = [] ∨ ∃ c t, l = c :: t ∧ isWS c = false) : trimL l = l := by
  rcases h with rfl | ⟨c, t, rfl, hc⟩
  · rfl
  · exact trimL_cons_false hc

theorem trimL_trimL (l : List Char) : trimL (trimL l) = trimL l :=
  dropWhile_dropWhile isWS l

theorem trimR_trimR (l : List Char) : trimR (trimR l) = trimR l := by
  simp [trimR, List.reverse_reverse, dropWhile_dropWhile]

theorem trimL_head (l : List Char) :
    trimL l = [] ∨ ∃ c t, trimL l = c :: t ∧ isWS c = false := by
  induction l with
  | nil => left; rfl
  | cons c cs ih =>
    by_cases h : isWS c
    · simpa [trimL, List.dropWhile, h] using ih
    · right
      exact ⟨c, cs, by simp [trimL, List.dropWhile, h], by simpa using h⟩

theorem jsTrim_idem (l : List Char) : jsTrim (jsTrim l) = jsTrim l := by
  unfold jsTrim
  have hL : trimL (trimR (trimL l)) = trimR (trimL l) := by
    apply trimL_of_head_ok
    cases htr : trimR (trimL l) with
    | nil => left; rfl
    | cons a as =>
      right
      refine ⟨a, as, rfl, ?_⟩
      rcases trimR_eq_nil_or_head (trimL l) with h | ⟨t, ht⟩
      · rw [htr] at h; cases h
      · rw [htr] at ht
        rcases trimL_head l with h0 | ⟨c, t', hct, hc⟩
        · rw [h0] at ht
          cases ht
        · rw [hct] at ht
          have ha : a = c := by
            have := ht
            simp only [List.cons_append] at this
            exact (List.cons.injEq _ _ _ _ ▸ this).1
          rw [ha]; exact hc
  rw [hL, trimR_trimR]

/-! ## Lemmas about line splitting and joining -/

theorem splitNL_noNL {l : List Char} (h : '\n' ∉ l) : splitNL l = [l] := by
  induction l with
  | nil => rfl
  | cons c cs ih =>
    have hc : ¬(c == '\n') = true := by
      simp only [List.mem_cons] at h
      simp only [beq_iff_eq]
      exact fun hcn => h (Or.inl hcn.symm)
    have hcs : '\n' ∉ cs := fun hm => h (List.mem_cons_of_mem _ hm)
    simp [splitNL, hc, ih hcs]

theorem splitNL_cut {l : List Char} (rest : List Char) (h : '\n' ∉ l) :
    splitNL (l ++ '\n' :: rest) = l :: splitNL rest := by
  induction l with
  | nil => simp [splitNL]
  | cons c cs ih =>
    have hc : ¬(c == '\n') = true := by
      simp only [List.mem_cons] at h
      simp only [beq_iff_eq]
      exact fun hcn => h (Or.inl hcn.symm)
    have hcs : '\n' ∉ cs := fun hm => h (List.mem_cons_of_mem _ hm)
    simp [splitNL, hc, ih hcs]

theorem splitNL_joinNL {ls : List (List Char)} (hne : ls ≠ [])
    (h : ∀ l ∈ ls, '\n' ∉ l) : splitNL (joinNL ls) = ls := by
  induction ls with
  | nil => cases hne rfl
  | cons l ls ih =>
    cases ls with
    | nil => exact splitNL_noNL (h l (List.mem_cons_self _ _))
    | cons l' ls' =>
      have hstep : joinNL (l :: l' :: ls') = l ++ '\n' :: joinNL (l' :: ls') := rfl
      rw [hstep, splitNL_cut _ (h l (List.mem_cons_self _ _))]
      rw [ih (by simp) (fun x hx => h x (List.mem_cons_of_mem _ hx))]

/-! ## Character facts about Nat.repr -/

theorem isWS_digitChar (n : Nat) : isWS (Nat.digitChar n) = false := by
  by_cases h : n < 16
  · interval_cases n <;> decide
  · have h0 : n ≠ 0 := by omega
    have h1 : n ≠ 1 := by omega
    have h2 : n ≠ 2 := by omega
    have h3 : n ≠ 3 := by omega
    have h4 : n ≠ 4 := by omega
    have h5 : n ≠ 5 := by omega
    have h6 : n ≠ 6 := by omega
    have h7 : n ≠ 7 := by omega
    have h8 : n ≠ 8 := by omega
    have h9 : n ≠ 9 := by omega
    have h10 : n ≠ 10 := by omega
    have h11 : n ≠ 11 := by omega
    have h12 : n ≠ 12 := by omega
    have h13 : n ≠ 13 := by omega
    have h14 : n ≠ 14 := by omega
    have h15 : n ≠ 15 := by omega
    simp only [Nat.digitChar, h0, h1, h2, h3, h4, h5, h6, h7, h8, h9, h10,
      h11, h12, h13, h14, h15, if_false]
    decide

theorem toDigitsCore_ws (b : Nat) :
    ∀ (fuel n : Nat) (ds : List Char), (∀ c ∈ ds, isWS c = false) →
      ∀ c ∈ Nat.toDigitsCore b fuel n ds, isWS c = false := by
  intro fuel
  induction fuel with
  | zero => intro n ds hds c hc; exact hds c hc
  | succ f ih =>
    intro n ds hds c hc
    unfold Nat.toDigitsCore at hc
    by_cases h0 : n / b = 0
    · simp only [h0, if_true] at hc
      rcases List.mem_cons.mp hc with rfl | hmem
      · exact isWS_digitChar _
      · exact hds c hmem
    · simp only [h0, if_false] at hc
      refine ih _ _ ?_ c hc
      intro x hx
      rcases List.mem_cons.mp hx with rfl | hmem
      · exact isWS_digitChar _
      · exact hds x hmem

theorem repr_chars_ws (n : Nat) : ∀ c ∈ (Nat.repr n).data, isWS c = false := by
  intro c hc
  have : (Nat.repr n).data = Nat.toDigits 10 n := rfl
  rw [this] at hc
  exact toDigitsCore_ws 10 (n + 1) n [] (by intro x hx; cases hx) c hc

theorem repr_chars_ne_nl (n : Nat) : '\n' ∉ (Nat.repr n).data := by
  intro hmem
  have := repr_chars_ws n '\n' hmem
  simp [isWS] at this

/-! ## The snippet rendering, spec side

The spec describes the extractor as: render each of the first
`min(maxLines, length)` lines as `" {index}: {line}\n"`, concatenate,
trim.  `renderedList`/`joinAll` are that description, to be compared with
the loop-built `snippetOf`. -/

/-- Spec-side list of renderings, numbering from `k + 1`. -/
def renderedList : Nat → List (List Char) → List (List Char)
  | _, [] => []
  | k, l :: ls => renderLine (k + 1) l :: renderedList (k + 1) ls

/-- Plain concatenation of a list of strings. -/
def joinAll : List (List Char) → List Char
  | [] => []
  | l :: ls => l ++ joinAll ls

theorem snippet_join (k : Nat) (L : List (List Char)) :
    snippetOf k L = joinAll (renderedList k L) := by
  induction L generalizing k with
  | nil => rfl
  | cons l ls ih => simp [snippetOf, renderedList, joinAll, ih]

/-- The body of the numbered listing after the final `trim`: line `i`
keeps its rendering, except that the leading space of the first line and
the final newline are gone. -/
def numbered : Nat → List (List Char) → List Char
  | _, [] => []
  | k, [l] => (Nat.repr (k + 1)).data ++ ':' :: ' ' :: l
  | k, l :: l' :: ls =>
    (Nat.repr (k + 1)).data ++ ':' :: ' ' :: l ++ '\n' :: ' ' :: numbered (k + 1) (l' :: ls)

theorem snippet_numbered (k : Nat) (l : List Char) (ls : List (List Char)) :
    snippetOf k (l :: ls) = ' ' :: (numbered k (l :: ls) ++ ['\n']) := by
  induction ls generalizing k l with
  | nil => simp [snippetOf, numbered, renderLine]
  | cons l' ls' ih =>
    show renderLine (k + 1) l ++ snippetOf (k + 1) (l' :: ls') = _
    rw [ih]
    simp [renderLine, numbered]

/-- The numbered listing starts with the decimal of its first number. -/
theorem numbered_head (k : Nat) (l : List Char) (ls : List (List Char)) :
    ∃ t, numbered k (l :: ls) = (Nat.repr (k + 1)).data ++ t := by
  cases ls with
  | nil => exact ⟨':' :: ' ' :: l, rfl⟩
  | cons l' ls' =>
    exact ⟨':' :: ' ' :: l ++ '\n' :: ' ' :: numbered (k + 1) (l' :: ls'), by simp [numbered]⟩

/-- The numbered listing ends with the last content line. -/
theorem numbered_ends (k : Nat) (l : List Char) (ls : List (List Char)) :
    ∃ A last t, (l :: ls).reverse = last :: t ∧ numbered k (l :: ls) = A ++ last := by
  induction ls generalizing k l with
  | nil =>
    exact ⟨(Nat.repr (k + 1)).data ++ [':', ' '], l, [], by simp, by simp [numbered]⟩
  | cons l' ls' ih =>
    obtain ⟨A', last, t, hrev, hnum⟩ := ih (k + 1) l'
    refine ⟨(Nat.repr (k + 1)).data ++ ':' :: ' ' :: l ++ '\n' :: ' ' :: A', last, t ++ [l],
      ?_, ?_⟩
    · have : (l :: l' :: ls').reverse = (l' :: ls').reverse ++ [l] := by simp
      rw [this, hrev]
      simp
    · show (Nat.repr (k + 1)).data ++ ':' :: ' ' :: l ++ '\n' :: ' ' :: numbered (k + 1) (l' :: ls') = _
      rw [hnum]
      simp

/-- Does the (non-empty) string end in a non-whitespace character? -/
def lastCharOk (l : List Char) : Bool :=
  match l.reverse with
  | [] => false
  | c :: _ => !isWS c

/-- Is the last line of the record fit for the final trim: non-empty and
not ending in whitespace?  (Vacuously true for an empty record.) -/
def lastLineOk (L : List (List Char)) : Bool :=
  match L.reverse with
  | [] => true
  | l :: _ => lastCharOk l

/-- Master lemma: under a trim-stable last line, the `trim` of the
rendered snippet removes exactly the leading space and final newline. -/
theorem jsTrim_snippet (l : List Char) (ls : List (List Char))
    (hok : lastLineOk (l :: ls) = true) :
    jsTrim (snippetOf 0 (l :: ls)) = numbered 0 (l :: ls) := by
  rw [snippet_numbered]
  obtain ⟨t0, hhead⟩ := numbered_head 0 l ls
  have hL : trimL (' ' :: (numbered 0 (l :: ls) ++ ['\n']))
      = numbered 0 (l :: ls) ++ ['\n'] := by
    rw [trimL_cons_space]
    apply trimL_of_head_ok
    right
    have h1 : (Nat.repr 1).data = ['1'] := rfl
    refine ⟨'1', t0 ++ ['\n'], ?_, by decide⟩
    rw [hhead]
    simp [h1]
  obtain ⟨A, last, t, hrev, hnum⟩ := numbered_ends 0 l ls
  have hlast : lastCharOk last = true := by
    unfold lastLineOk at hok
    rw [hrev] at hok
    exact hok
  obtain ⟨c, ct, hcrev, hc⟩ : ∃ c ct, last.reverse = c :: ct ∧ isWS c = false := by
    unfold lastCharOk at hlast
    cases hr : last.reverse with
    | nil => rw [hr] at hlast; cases hlast
    | cons c ct =>
      rw [hr] at hlast
      exact ⟨c, ct, rfl, by simpa using hlast⟩
  have hR : trimR (numbered 0 (l :: ls) ++ ['\n']) = numbered 0 (l :: ls) := by
    unfold trimR
    have hrev2 : (numbered 0 (l :: ls) ++ ['\n']).reverse
        = '\n' :: (c :: (ct ++ A.reverse)) := by
      rw [hnum]
      simp [List.reverse_append, hcrev]
    rw [hrev2]
    have : List.dropWhile isWS ('\n' :: c :: (ct ++ A.reverse))
        = c :: (ct ++ A.reverse) := by
      rw [List.dropWhile_cons_of_pos (by decide), dropWhile_cons_false hc]
    rw [this]
    have : (c :: (ct ++ A.reverse)).reverse = numbered 0 (l :: ls) := by
      have h3 : c :: (ct ++ A.reverse) = (A ++ last).reverse := by
        simp [List.reverse_append, hcrev]
      rw [h3, List.reverse_reverse, hnum]
    rw [this]
  rw [jsTrim, hL, hR]

/-- The lines of the trimmed listing from the second one on: each keeps
its leading space. -/
def spacedTail : Nat → List (List Char) → List (List Char)
  | _, [] => []
  | k, l :: ls => (' ' :: ((Nat.repr (k + 1)).data ++ ':' :: ' ' :: l)) :: spacedTail (k + 1) ls

theorem chunk_noNL {l : List Char} (n : Nat) (h : '\n' ∉ l) :
    '\n' ∉ (Nat.repr n).data ++ ':' :: ' ' :: l := by
  intro hmem
  rcases List.mem_append.mp hmem with h1 | h2
  · exact repr_chars_ne_nl n h1
  · rcases List.mem_cons.mp h2 with hc | h3
    · cases hc
    · rcases List.mem_cons.mp h3 with hc | h4
      · cases hc
      · exact h h4

theorem splitNL_cons_other {c : Char} {xs : List Char} {s : List Char}
    {ss : List (List Char)} (hc : c ≠ '\n') (h : splitNL xs = s :: ss) :
    splitNL (c :: xs) = (c :: s) :: ss := by
  have hcb : ¬(c == '\n') = true := by simpa using hc
  simp [splitNL, hcb, h]

theorem splitNumbered (ls : List (List Char)) :
    ∀ (k : Nat) (l : List Char), (∀ x ∈ l :: ls, '\n' ∉ x) →
      splitNL (numbered k (l :: ls))
        = ((Nat.repr (k + 1)).data ++ ':' :: ' ' :: l) :: spacedTail (k + 1) ls := by
  induction ls with
  | nil =>
    intro k l h
    exact splitNL_noNL (chunk_noNL _ (h l (List.mem_cons_self _ _)))
  | cons l' ls' ih =>
    intro k l h
    have hshape : numbered k (l :: l' :: ls')
        = ((Nat.repr (k + 1)).data ++ ':' :: ' ' :: l)
          ++ '\n' :: (' ' :: numbered (k + 1) (l' :: ls')) := by
      simp [numbered]
    rw [hshape, splitNL_cut _ (chunk_noNL _ (h l (List.mem_cons_self _ _)))]
    have hih := ih (k + 1) l' (fun x hx => h x (List.mem_cons_of_mem _ hx))
    rw [splitNL_cons_other (by decide) hih]
    rfl

theorem spacedTail_getD (ls : List (List Char)) :
    ∀ (k i : Nat), i < ls.length →
      (spacedTail k ls).getD i []
        = ' ' :: ((Nat.repr (k + i + 1)).data ++ ':' :: ' ' :: ls.getD i []) := by
  induction ls with
  | nil => intro k i h; cases h
  | cons l ls' ih =>
    intro k i h
    cases i with
    | zero => rfl
    | succ j =>
      have : (spacedTail k (l :: ls')).getD (j + 1) [] = (spacedTail (k + 1) ls').getD j [] := rfl
      rw [this, ih (k + 1) j (by simpa using h)]
      have harith : k + 1 + j + 1 = k + (j + 1) + 1 := by omega
      rw [harith]
      rfl

/-- The round-trip property of the spec, stated on the extracted text:
the `i`-th line of the output is the `i`-th content line, prefixed by
its 1-based index (`sp` is whatever padding precedes the number). -/
def reproduces (out : List Char) (L : List (List Char)) : Prop :=
  ∀ i, i < L.length →
    ∃ sp, (splitNL out).getD i []
      = sp ++ (Nat.repr (i + 1)).data ++ ':' :: ' ' :: L.getD i []

/-- The extractor as the spec words it, with the trim of the source
(`trim()` takes whitespace off both ends). -/
def extractSpec (r : FileRecord) (m : Int) : List Char :=
  jsTrim (joinAll (renderedList 0 (r.content.take (min m.toNat r.content.length))))

/-- The extractor as claim C3 words it: only trailing whitespace trimmed
from the concatenated rendering. -/
def extractClaimC3 (r : FileRecord) (m : Int) : List Char :=
  trimR (joinAll (renderedList 0 (r.content.take (min m.toNat r.content.length))))

theorem jsSliceTo_nonneg (l : List (List Char)) {m : Int} (h : 0 ≤ m) :
    jsSliceTo l m = l.take (min m.toNat l.length) := by
  unfold jsSliceTo
  rw [if_neg (by omega)]
  rcases le_or_lt m.toNat l.length with hle | hlt
  · rw [min_eq_left hle]
  · rw [min_eq_right (le_of_lt hlt), List.take_length,
      List.take_of_length_le (le_of_lt hlt)]

/-- C3 (counterexample): on a one-line record, the code's result drops
the first line's leading space (JS `trim()` trims both ends), so the
claimed trailing-only trim does not describe `extract`. -/
theorem claim_c3_counterexample :
    extract ⟨("a.txt".data), [("x".data)]⟩ 1
      ≠ extractClaimC3 ⟨("a.txt".data), [("x".data)]⟩ 1 := by
  decide

/-- C3 (amended): `extract(record, maxLines)` is the concatenation of
the first `min(maxLines, length)` content lines, each rendered as
`" {index}: {line}\n"`, with **leading and** trailing whitespace trimmed
from the final result (so the first line's leading space is removed). -/
theorem claim_c3_trim_both (r : FileRecord) (m : Int) (h : 0 ≤ m) :
    extract r m = extractSpec r m := by
  unfold extract extractSpec
  rw [jsSliceTo_nonneg _ h, snippet_join]

theorem claim_c3_witness :
    extract ⟨("a.txt".data), [("x".data), ("y".data)]⟩ 1
      = extractSpec ⟨("a.txt".data), [("x".data), ("y".data)]⟩ 1 :=
  claim_c3_trim_both _ 1 (by decide)

/-- C6: `extract` at `maxLines = 0` yields an empty body; any bound
above the content length yields the whole numbered content; an omitted
`maxLines` defaults to 40. -/
theorem claim_c6_maxlines_boundary (r : FileRecord) (N : Int)
    (h : (r.content.length : Int) < N) :
    extract r 0 = []
      ∧ extract r N = jsTrim (joinAll (renderedList 0 r.content))
      ∧ extractDefaulted r none = extract r 40 := by
  refine ⟨rfl, ?_, rfl⟩
  unfold extract
  have hslice : jsSliceTo r.content N = r.content := by
    unfold jsSliceTo
    rw [if_neg (by omega), List.take_of_length_le (by omega)]
  rw [hslice, snippet_join]

theorem claim_c6_witness :
    extract ⟨("f".data), [("a".data)]⟩ 0 = []
      ∧ extract ⟨("f".data), [("a".data)]⟩ 5
          = jsTrim (joinAll (renderedList 0 [("a".data)]))
      ∧ extractDefaulted ⟨("f".data), [("a".data)]⟩ none
          = extract ⟨("f".data), [("a".data)]⟩ 40 :=
  claim_c6_maxlines_boundary ⟨("f".data), [("a".data)]⟩ 5 (by decide)

/-- C10: for a negative `maxLines` the slice keeps everything but the
last `|maxLines|` lines (JS `slice(0, negative)`), which are then
rendered and trimmed as usual — not an empty body and not an error. -/
theorem claim_c10_negative_maxlines (r : FileRecord) (m : Int)
    (hne : r.content ≠ []) (hm : m < 0) :
    extract r m
      = jsTrim (joinAll (renderedList 0 (r.content.take (r.content.length - m.natAbs)))) := by
  unfold extract
  have hslice : jsSliceTo r.content m = r.content.take (r.content.length - m.natAbs) := by
    unfold jsSliceTo
    rw [if_pos hm]
  rw [hslice, snippet_join]

theorem claim_c10_witness :
    extract ⟨("f".data), [("aa".data), ("bb".data)]⟩ (-1)
      = jsTrim (joinAll (renderedList 0 ([("aa".data), ("bb".data)].take (2 - 1)))) :=
  claim_c10_negative_maxlines ⟨("f".data), [("aa".data), ("bb".data)]⟩ (-1)
    (by decide) (by decide)

/-- C2 (counterexample): a tokenizer-produced record whose single
content line ends in a space; the final trim eats that space, so the
line is not reproduced verbatim in the extracted text. -/
theorem claim_c2_counterexample :
    parseBundle ("<file path=\"f.txt\">\nx \n</file>".data)
        = [⟨("f.txt".data), [("x ".data)]⟩]
      ∧ ¬ reproduces (extract ⟨("f.txt".data), [("x ".data)]⟩ 1) [("x ".data)] := by
  refine ⟨by decide, ?_⟩
  intro h
  obtain ⟨sp, hsp⟩ := h 0 (by decide)
  have h1 : (Nat.repr (0 + 1)).data = ['1'] := rfl
  rw [h1] at hsp
  have hout : (splitNL (extract ⟨("f.txt".data), [("x ".data)]⟩ 1)).getD 0 []
      = ['1', ':', ' ', 'x'] := by decide
  rw [hout] at hsp
  have hlen := congrArg List.length hsp
  simp [List.length_append] at hlen

/-- C2 (amended): for every record the tokenizer produces whose last
content line is non-empty and does not end in whitespace, extracting at
`maxLines = length(content)` reproduces every content line in order,
each prefixed with its 1-based index (the first line's prefix loses its
leading space to the final trim). -/
theorem claim_c2_round_trip (dump : List Char) (r : FileRecord)
    (hmem : r ∈ parseBundle dump)
    (hnl : ∀ l ∈ r.content, '\n' ∉ l)
    (hok : lastLineOk r.content = true) :
    reproduces (extract r ((r.content.length : Nat) : Int)) r.content := by
  have hslice : jsSliceTo r.content ((r.content.length : Nat) : Int) = r.content := by
    unfold jsSliceTo
    rw [if_neg (by omega)]
    have : ((r.content.length : Nat) : Int).toNat = r.content.length := by omega
    rw [this, List.take_length]
  by_cases hc : r.content = []
  · intro i hi
    rw [hc] at hi
    simp at hi
  · obtain ⟨l, ls, hc⟩ : ∃ l ls, r.content = l :: ls := by
      cases hcc : r.content with
      | nil => exact absurd hcc hc
      | cons a as => exact ⟨a, as, rfl⟩
    have hok2 : lastLineOk (l :: ls) = true := by rw [← hc]; exact hok
    have hnl2 : ∀ x ∈ l :: ls, '\n' ∉ x := by rw [← hc]; exact hnl
    unfold extract reproduces
    rw [hslice, hc]
    rw [jsTrim_snippet l ls hok2, splitNumbered ls 0 l hnl2]
    intro i hi
    cases i with
    | zero => exact ⟨[], by simp⟩
    | succ j =>
      refine ⟨[' '], ?_⟩
      have hgd : ((((Nat.repr (0 + 1)).data ++ ':' :: ' ' :: l) :: spacedTail (0 + 1) ls).getD
          (j + 1) []) = (spacedTail 1 ls).getD j [] := rfl
      rw [hgd, spacedTail_getD ls 1 j (by simpa using hi)]
      have harith : 1 + j + 1 = j + 1 + 1 := by omega
      rw [harith]
      rfl

/-! ## Tokenizer lemmas for C1 and C5 -/

/-- A dump line of the first delimiter syntax: `<file path="{p}">`. -/
def xmlOpenLine (p : List Char) : List Char :=
  ("<file path=\"".data) ++ p ++ ("\">".data)

/-- A dump line of the second delimiter syntax: `# File: {p}`. -/
def hashOpenLine (p : List Char) : List Char :=
  ("# File: ".data) ++ p

/-- The closing line of the first syntax. -/
def closeLine : List Char := "</file>".data

theorem matchXmlOpen_line {p : List Char} (hp : p ≠ []) :
    matchXmlOpen (xmlOpenLine p) = some p := by
  have hplen : 1 ≤ p.length := List.length_pos.mpr hp
  have h12 : ("<file path=\"".data).length = 12 := by decide
  have h2 : ("\">".data).length = 2 := by decide
  have hlen : (xmlOpenLine p).length = p.length + 14 := by
    unfold xmlOpenLine
    rw [List.length_append, List.length_append, h12, h2]
    omega
  have hpre : pre ("<file path=\"".data) (xmlOpenLine p) = true := by
    have hx : xmlOpenLine p = ("<file path=\"".data) ++ (p ++ ("\">".data)) := by
      unfold xmlOpenLine
      rw [List.append_assoc]
    rw [hx]
    exact pre_self_append _ _
  have hsuf : pre (("\">".data).reverse) (xmlOpenLine p).reverse = true := by
    have hx : (xmlOpenLine p).reverse
        = (("\">".data).reverse) ++ (p.reverse ++ ("<file path=\"".data).reverse) := by
      unfold xmlOpenLine
      rw [List.reverse_append, List.reverse_append]
    rw [hx]
    exact pre_self_append _ _
  have hge : 15 ≤ (xmlOpenLine p).length := by omega
  have hcond : (pre ("<file path=\"".data) (xmlOpenLine p)
      && pre (("\">".data).reverse) (xmlOpenLine p).reverse
      && decide (15 ≤ (xmlOpenLine p).length)) = true := by
    rw [hpre, hsuf, decide_eq_true hge]
    rfl
  unfold matchXmlOpen
  rw [if_pos hcond]
  congr 1
  have hdrop : (xmlOpenLine p).drop 12 = p ++ ("\">".data) := by
    have hx : xmlOpenLine p = ("<file path=\"".data) ++ (p ++ ("\">".data)) := by
      unfold xmlOpenLine
      rw [List.append_assoc]
    rw [hx, ← h12, List.drop_left]
  rw [hdrop, hlen]
  have hnum : p.length + 14 - 14 = p.length := by omega
  rw [hnum, List.take_left]

theorem pre_head {c : Char} {cs l : List Char} (h : pre (c :: cs) l = true) :
    ∃ t, l = c :: t := by
  cases l with
  | nil => cases h
  | cons b bs =>
    refine ⟨bs, ?_⟩
    simp only [pre, Bool.and_eq_true, beq_iff_eq] at h
    rw [h.1]

theorem hashOpenLine_cons (p : List Char) :
    hashOpenLine p = '#' :: ((" File: ".data) ++ p) := by
  have h : ("# File: ".data) = '#' :: (" File: ".data) := by decide
  simp [hashOpenLine, h]

theorem matchXmlOpen_hashLine (p : List Char) :
    matchXmlOpen (hashOpenLine p) = none := by
  unfold matchXmlOpen
  rw [if_neg]
  intro hcond
  simp only [Bool.and_eq_true] at hcond
  obtain ⟨t, ht⟩ := pre_head hcond.1.1
  rw [hashOpenLine_cons] at ht
  cases ht

theorem matchHashOpen_line {p : List Char} (hp : p ≠ []) :
    matchHashOpen (hashOpenLine p) = some p := by
  have hplen : 1 ≤ p.length := List.length_pos.mpr hp
  have h8 : ("# File: ".data).length = 8 := by decide
  have hlen : (hashOpenLine p).length = p.length + 8 := by
    unfold hashOpenLine
    rw [List.length_append, h8]
    omega
  have hpre : pre ("# File: ".data) (hashOpenLine p) = true := pre_self_append _ _
  have hge : 9 ≤ (hashOpenLine p).length := by omega
  have hcond : (pre ("# File: ".data) (hashOpenLine p)
      && decide (9 ≤ (hashOpenLine p).length)) = true := by
    rw [hpre, decide_eq_true hge]
    rfl
  unfold matchHashOpen
  rw [if_pos hcond]
  congr 1

theorem delim_decomp {l : List Char} (h : isDelimLine l = false) :
    matchXmlOpen l = none ∧ matchHashOpen l = none ∧ isCloseLine l = false := by
  unfold isDelimLine at h
  simp only [Bool.or_eq_false_iff] at h
  obtain ⟨⟨h1, h2⟩, h3⟩ := h
  refine ⟨?_, ?_, h3⟩
  · cases hx : matchXmlOpen l with
    | none => rfl
    | some p => rw [hx] at h1; cases h1
  · cases hx : matchHashOpen l with
    | none => rfl
    | some p => rw [hx] at h2; cases h2

theorem tokenizeLoop_cons (line : List Char) (rest : List (List Char))
    (cur : Option FileRecord) (blocks : List FileRecord) :
    tokenizeLoop (line :: rest) cur blocks =
      match matchXmlOpen line with
      | some p => tokenizeLoop rest (some ⟨jsTrim p, []⟩) (sealInto blocks cur)
      | none =>
        match matchHashOpen line with
        | some p => tokenizeLoop rest (some ⟨jsTrim p, []⟩) (sealInto blocks cur)
        | none =>
          if isCloseLine line then tokenizeLoop rest none (sealInto blocks cur)
          else
            match cur with
            | some r => tokenizeLoop rest (some ⟨r.path, r.content ++ [line]⟩) blocks
            | none => tokenizeLoop rest none blocks := rfl

theorem tokenRun (L : List (List Char)) :
    ∀ (rest : List (List Char)) (r : FileRecord) (blocks : List FileRecord),
      (∀ l ∈ L, isDelimLine l = false) →
      tokenizeLoop (L ++ rest) (some r) blocks
        = tokenizeLoop rest (some ⟨r.path, r.content ++ L⟩) blocks := by
  induction L with
  | nil => intro rest r blocks _; simp
  | cons l L' ih =>
    intro rest r blocks h
    obtain ⟨hxml, hhash, hclose⟩ := delim_decomp (h l (List.mem_cons_self _ _))
    show tokenizeLoop (l :: (L' ++ rest)) (some r) blocks = _
    rw [tokenizeLoop_cons, hxml, hhash]
    simp only [hclose, Bool.false_eq_true, if_false]
    rw [ih rest ⟨r.path, r.content ++ [l]⟩ blocks (fun x hx => h x (List.mem_cons_of_mem _ hx))]
    simp

theorem tokenStep_xml {p : List Char} (hp : p ≠ []) (rest : List (List Char))
    (cur : Option FileRecord) (blocks : List FileRecord) :
    tokenizeLoop (xmlOpenLine p :: rest) cur blocks
      = tokenizeLoop rest (some ⟨jsTrim p, []⟩) (sealInto blocks cur) := by
  rw [tokenizeLoop_cons, matchXmlOpen_line hp]

theorem tokenStep_hash {p : List Char} (hp : p ≠ []) (rest : List (List Char))
    (cur : Option FileRecord) (blocks : List FileRecord) :
    tokenizeLoop (hashOpenLine p :: rest) cur blocks
      = tokenizeLoop rest (some ⟨jsTrim p, []⟩) (sealInto blocks cur) := by
  rw [tokenizeLoop_cons, matchXmlOpen_hashLine, matchHashOpen_line hp]

theorem tokenStep_close (rest : List (List Char)) (cur : Option FileRecord)
    (blocks : List FileRecord) :
    tokenizeLoop (closeLine :: rest) cur blocks
      = tokenizeLoop rest none (sealInto blocks cur) := by
  have hxml : matchXmlOpen closeLine = none := by decide
  have hhash : matchHashOpen closeLine = none := by decide
  have hcl : isCloseLine closeLine = true := by decide
  rw [tokenizeLoop_cons, hxml, hhash]
  simp only [hcl, if_true]

theorem tokenEndRun (L : List (List Char)) (r : FileRecord) (blocks : List FileRecord)
    (h : ∀ l ∈ L, isDelimLine l = false) :
    tokenizeLoop L (some r) blocks = blocks ++ [⟨r.path, r.content ++ L⟩] := by
  have hrun := tokenRun L [] r blocks h
  rw [List.append_nil] at hrun
  exact hrun

theorem xmlOpenLine_noNL {p : List Char} (hn : '\n' ∉ p) : '\n' ∉ xmlOpenLine p := by
  intro hmem
  unfold xmlOpenLine at hmem
  rcases List.mem_append.mp hmem with h1 | h2
  · rcases List.mem_append.mp h1 with ha | hb
    · revert ha; decide
    · exact hn hb
  · revert h2; decide

theorem hashOpenLine_noNL {p : List Char} (hn : '\n' ∉ p) : '\n' ∉ hashOpenLine p := by
  intro hmem
  unfold hashOpenLine at hmem
  rcases List.mem_append.mp hmem with h1 | h2
  · revert h1; decide
  · exact hn h2

/-- C5: when input ends with a record still open, the record is sealed
with everything scanned so far (first conjunct: the loop, from any
state); in particular a dump that is a heading marker followed by
ordinary lines yields that one record with exactly those lines (second
conjunct). -/
theorem claim_c5_end_seal :
    (∀ (L : List (List Char)) (r : FileRecord) (blocks : List FileRecord),
      (∀ l ∈ L, isDelimLine l = false) →
      tokenizeLoop L (some r) blocks = blocks ++ [⟨r.path, r.content ++ L⟩])
    ∧ (∀ (p : List Char) (L : List (List Char)), p ≠ [] → jsTrim p = p → '\n' ∉ p →
        (∀ l ∈ L, isDelimLine l = false ∧ '\n' ∉ l) →
        parseBundle (joinNL (hashOpenLine p :: L)) = [⟨p, L⟩]) := by
  refine ⟨tokenEndRun, ?_⟩
  intro p L hp htrim hn hL
  unfold parseBundle
  have hlines : splitNL (joinNL (hashOpenLine p :: L)) = hashOpenLine p :: L := by
    apply splitNL_joinNL (by simp)
    intro l hl
    rcases List.mem_cons.mp hl with rfl | hl2
    · exact hashOpenLine_noNL hn
    · exact (hL l hl2).2
  rw [hlines, tokenStep_hash hp, htrim]
  rw [tokenEndRun L ⟨p, []⟩ (sealInto [] none) (fun l hl => (hL l hl).1)]
  rfl

theorem claim_c5_witness :
    parseBundle (joinNL (hashOpenLine ("b.md".data) :: [("hello".data), ("world".data)]))
      = [⟨("b.md".data), [("hello".data), ("world".data)]⟩] :=
  claim_c5_end_seal.2 ("b.md".data) [("hello".data), ("world".data)]
    (by decide) (by decide) (by decide) (by decide)

/-- C1: a dump made of one XML-delimited file followed by one
heading-delimited file tokenizes to exactly two records, each with its
own path and exactly its own content lines — the opening and closing
delimiters seal the current record before a new one begins, so no line
leaks between records. -/
theorem claim_c1_mixed_dump (p₁ p₂ : List Char) (L₁ L₂ : List (List Char))
    (hp₁ : p₁ ≠ []) (hp₂ : p₂ ≠ [])
    (ht₁ : jsTrim p₁ = p₁) (ht₂ : jsTrim p₂ = p₂)
    (hn₁ : '\n' ∉ p₁) (hn₂ : '\n' ∉ p₂)
    (hL : ∀ l ∈ L₁ ++ L₂, isDelimLine l = false ∧ '\n' ∉ l) :
    parseBundle (joinNL (xmlOpenLine p₁ :: (L₁ ++ closeLine :: hashOpenLine p₂ :: L₂)))
      = [⟨p₁, L₁⟩, ⟨p₂, L₂⟩] := by
  have hL1 : ∀ l ∈ L₁, isDelimLine l = false :=
    fun l hl => (hL l (List.mem_append_left _ hl)).1
  have hL2 : ∀ l ∈ L₂, isDelimLine l = false :=
    fun l hl => (hL l (List.mem_append_right _ hl)).1
  unfold parseBundle
  have hlines : splitNL (joinNL (xmlOpenLine p₁ :: (L₁ ++ closeLine :: hashOpenLine p₂ :: L₂)))
      = xmlOpenLine p₁ :: (L₁ ++ closeLine :: hashOpenLine p₂ :: L₂) := by
    apply splitNL_joinNL (by simp)
    intro l hl
    rcases List.mem_cons.mp hl with rfl | hl2
    · exact xmlOpenLine_noNL hn₁
    · rcases List.mem_append.mp hl2 with ha | hb
      · exact (hL l (List.mem_append_left _ ha)).2
      · rcases List.mem_cons.mp hb with rfl | hc
        · decide
        · rcases List.mem_cons.mp hc with rfl | hd
          · exact hashOpenLine_noNL hn₂
          · exact (hL l (List.mem_append_right _ hd)).2
  rw [hlines, tokenStep_xml hp₁, ht₁]
  rw [tokenRun L₁ (closeLine :: hashOpenLine p₂ :: L₂) ⟨p₁, []⟩ (sealInto [] none) hL1]
  rw [tokenStep_close, tokenStep_hash hp₂, ht₂]
  rw [tokenEndRun L₂ ⟨p₂, []⟩ _ hL2]
  simp [sealInto]

theorem claim_c1_witness :
    parseBundle (joinNL (xmlOpenLine ("a.ts".data)
        :: ([("la1".data)] ++ closeLine :: hashOpenLine ("b.md".data) :: [("lb1".data)])))
      = [⟨("a.ts".data), [("la1".data)]⟩, ⟨("b.md".data), [("lb1".data)]⟩] :=
  claim_c1_mixed_dump ("a.ts".data) ("b.md".data) [("la1".data)] [("lb1".data)]
    (by decide) (by decide) (by decide) (by decide) (by decide) (by decide) (by decide)

theorem claim_c2_witness :
    reproduces
      (extract ⟨("a.ts".data), [("line1".data), ("line2".data)]⟩
        (((⟨("a.ts".data), [("line1".data), ("line2".data)]⟩ : FileRecord).content.length : Nat) : Int))
      [("line1".data), ("line2".data)] :=
  claim_c2_round_trip
    ("<file path=\"a.ts\">\nline1\nline2\n</file>".data)
    ⟨("a.ts".data), [("line1".data), ("line2".data)]⟩
    (by decide) (by decide) (by decide)

/-! ## C4: lookup -/

/-- The lookup as the spec words it: first record (in dump order) whose
normalized path equals the normalized request; failing that, the first
whose normalized path matches case-insensitively; else nothing. -/
def findSpec (blocks : List FileRecord) (file : List Char) : Option FileRecord :=
  let requested := normalizePath file
  match (blocks.filter (fun f => normalizePath f.path == requested)).head? with
  | some r => some r
  | none =>
      (blocks.filter (fun f => lower (normalizePath f.path) == lower requested)).head?

theorem jsFind_eq_head_filter (p : α → Bool) (l : List α) :
    jsFind p l = (l.filter p).head? := by
  induction l with
  | nil => rfl
  | cons a as ih =>
    by_cases h : p a
    · simp [jsFind, List.filter_cons, h]
    · simp only [Bool.not_eq_true] at h
      simp [jsFind, List.filter_cons, h, ih]

theorem jsFind_eq_none (p : α → Bool) (l : List α) :
    jsFind p l = none ↔ ∀ a ∈ l, p a = false := by
  induction l with
  | nil => simp [jsFind]
  | cons a as ih =>
    by_cases h : p a
    · simp [jsFind, h]
    · simp only [Bool.not_eq_true] at h
      simp [jsFind, h, ih]

/-- C4: the lookup is the two-pass first-match search the spec
describes, and it reports "not found" exactly when no record matches
even case-insensitively. -/
theorem claim_c4_find_two_pass (blocks : List FileRecord) (file : List Char) :
    findRecord blocks file = findSpec blocks file
      ∧ (findRecord blocks file = none ↔
          ∀ r ∈ blocks, normalizePath r.path ≠ normalizePath file
            ∧ lower (normalizePath r.path) ≠ lower (normalizePath file)) := by
  constructor
  · simp only [findRecord, findSpec]
    rw [jsFind_eq_head_filter, jsFind_eq_head_filter]
  · simp only [findRecord]
    cases h1 : jsFind (fun f => normalizePath f.path == normalizePath file) blocks with
    | some r =>
      simp only [h1]
      constructor
      · intro h; cases h
      · intro h
        exfalso
        rw [jsFind_eq_head_filter] at h1
        obtain ⟨l, hl⟩ := List.head?_eq_some_iff.mp h1
        have hmem : r ∈ blocks.filter (fun f => normalizePath f.path == normalizePath file) := by
          rw [hl]; exact List.mem_cons_self _ _
        obtain ⟨hrb, hrp⟩ := List.mem_filter.mp hmem
        exact (h r hrb).1 (by simpa using hrp)
    | none =>
      simp only [h1]
      rw [jsFind_eq_none]
      constructor
      · intro h r hr
        have hx := (jsFind_eq_none _ _).mp h1 r hr
        have hy := h r hr
        constructor
        · simpa using hx
        · simpa using hy
      · intro h r hr
        simpa using (h r hr).2

/-! ## C9: ignore-pattern loader -/

/-- C9: the loader never produces an empty pattern string, and a file of
only blank lines and `#` comments loads as nothing at all. -/
theorem claim_c9_ignore_loader (content : List Char) :
    ignoreGlobs content ≠ some []
      ∧ ((∀ l ∈ splitNL content, jsTrim l = [] ∨ pre (['#']) (jsTrim l) = true) →
          ignoreGlobs content = none) := by
  constructor
  · intro hsome
    unfold ignoreGlobs at hsome
    by_cases hlen : (((splitNL content).map jsTrim).filter keepIgnoreLine).length = 0
    · rw [if_pos hlen] at hsome
      cases hsome
    · rw [if_neg hlen] at hsome
      have hjoin := Option.some.inj hsome
      cases hfil : ((splitNL content).map jsTrim).filter keepIgnoreLine with
      | nil => rw [hfil] at hlen; exact hlen rfl
      | cons x rest =>
        have hx : keepIgnoreLine x = true := by
          have hmem : x ∈ ((splitNL content).map jsTrim).filter keepIgnoreLine := by
            rw [hfil]; exact List.mem_cons_self _ _
          exact (List.mem_filter.mp hmem).2
        have hxne : x ≠ [] := by
          intro hxe
          rw [hxe] at hx
          simp [keepIgnoreLine] at hx
        rw [hfil] at hjoin
        cases rest with
        | nil => exact hxne hjoin
        | cons y ys =>
          have : joinComma (x :: y :: ys) = x ++ ',' :: joinComma (y :: ys) := rfl
          rw [this] at hjoin
          simp at hjoin
  · intro h
    have hfil : ((splitNL content).map jsTrim).filter keepIgnoreLine = [] := by
      rw [List.filter_eq_nil]
      intro a ha
      obtain ⟨l, hl, rfl⟩ := List.mem_map.mp ha
      rcases h l hl with hb | hh
      · simp [keepIgnoreLine, hb]
      · simp [keepIgnoreLine, hh]
    unfold ignoreGlobs
    rw [hfil]
    rfl

theorem claim_c9_witness :
    ignoreGlobs ("# comment\n   \n\t\n".data) = none :=
  (claim_c9_ignore_loader _).2 (by decide)

/-! ## C7: report summary extraction -/

/-- Truth of "one of the two summary markers occurs at position `i` of
the text". -/
def altAt (f : List Char) (i : Nat) : Prop :=
  pre packMarker (f.drop i) = true ∨ pre totalMarker (f.drop i) = true

instance (f : List Char) (i : Nat) : Decidable (altAt f i) :=
  inferInstanceAs (Decidable (_ ∨ _))

theorem altAt_nil (i : Nat) : ¬ altAt [] i := by
  intro h
  rcases h with h | h <;> rw [List.drop_nil] at h <;> revert h <;> decide

theorem altAt_succ (c : Char) (rest : List Char) (i : Nat) :
    altAt (c :: rest) (i + 1) ↔ altAt rest i := by
  unfold altAt
  rw [List.drop_succ_cons]

theorem altFirst_cons (c : Char) (rest : List Char) :
    altFirst (c :: rest)
      = if pre packMarker (c :: rest) = true then some packMarker
        else if pre totalMarker (c :: rest) = true then some totalMarker
        else altFirst rest := rfl

theorem idxOf_cons (pat : List Char) (c : Char) (rest : List Char) :
    idxOf pat (c :: rest)
      = if pre pat (c :: rest) = true then some 0
        else (idxOf pat rest).map (· + 1) := rfl

theorem altFirst_none_iff (f : List Char) :
    altFirst f = none ↔ ∀ i, ¬ altAt f i := by
  induction f with
  | nil =>
    simp only [altFirst, true_iff]
    exact altAt_nil
  | cons c rest ih =>
    by_cases h1 : pre packMarker (c :: rest) = true
    · constructor
      · intro h
        rw [altFirst_cons, if_pos h1] at h
        cases h
      · intro h
        exact absurd (Or.inl h1 : altAt (c :: rest) 0) (h 0)
    · by_cases h2 : pre totalMarker (c :: rest) = true
      · constructor
        · intro h
          rw [altFirst_cons, if_neg h1, if_pos h2] at h
          cases h
        · intro h
          exact absurd (Or.inr h2 : altAt (c :: rest) 0) (h 0)
      · have hstep : altFirst (c :: rest) = altFirst rest := by
          rw [altFirst_cons, if_neg h1, if_neg h2]
        rw [hstep, ih]
        constructor
        · intro h i
          cases i with
          | zero =>
            intro hAt
            rcases hAt with hA | hA
            · exact h1 hA
            · exact h2 hA
          | succ j => rw [altAt_succ]; exact h j
        · intro h i
          have := h (i + 1)
          rw [altAt_succ] at this
          exact this

theorem altFirst_min (f : List Char) :
    ∀ (i : Nat), altAt f i → (∀ j, j < i → ¬ altAt f j) →
      altFirst f = some (if pre packMarker (f.drop i) = true then packMarker else totalMarker)
      ∧ idxOf (if pre packMarker (f.drop i) = true then packMarker else totalMarker) f
          = some i := by
  induction f with
  | nil => intro i hAt _; exact absurd hAt (altAt_nil i)
  | cons c rest ih =>
    intro i hAt hmin
    cases i with
    | zero =>
      have hAt0 : pre packMarker (c :: rest) = true ∨ pre totalMarker (c :: rest) = true := by
        unfold altAt at hAt
        rwa [List.drop_zero] at hAt
      rw [List.drop_zero]
      by_cases hp : pre packMarker (c :: rest) = true
      · rw [if_pos hp]
        constructor
        · rw [altFirst_cons, if_pos hp]
        · rw [idxOf_cons, if_pos hp]
      · have ht : pre totalMarker (c :: rest) = true := by
          rcases hAt0 with h | h
          · exact absurd h hp
          · exact h
        rw [if_neg hp]
        constructor
        · rw [altFirst_cons, if_neg hp, if_pos ht]
        · rw [idxOf_cons, if_pos ht]
    | succ j =>
      have h0 : ¬ altAt (c :: rest) 0 := hmin 0 (Nat.succ_pos j)
      have hp0 : ¬ pre packMarker (c :: rest) = true := by
        intro h
        apply h0
        unfold altAt
        rw [List.drop_zero]
        exact Or.inl h
      have ht0 : ¬ pre totalMarker (c :: rest) = true := by
        intro h
        apply h0
        unfold altAt
        rw [List.drop_zero]
        exact Or.inr h
      have hAt' : altAt rest j := (altAt_succ c rest j).mp hAt
      have hmin' : ∀ k, k < j → ¬ altAt rest k := by
        intro k hk
        rw [← altAt_succ c]
        exact hmin (k + 1) (by omega)
      obtain ⟨hfirst, hidx⟩ := ih j hAt' hmin'
      rw [List.drop_succ_cons]
      constructor
      · rw [altFirst_cons, if_neg hp0, if_neg ht0]
        exact hfirst
      · have hnotpre : ¬ pre (if pre packMarker (rest.drop j) = true then packMarker
            else totalMarker) (c :: rest) = true := by
          by_cases hc : pre packMarker (rest.drop j) = true
          · rw [if_pos hc]; exact hp0
          · rw [if_neg hc]; exact ht0
        rw [idxOf_cons, if_neg hnotpre, hidx]
        rfl

/-- C7: the summary is everything from the first occurrence of either
marker to the end, trimmed; with no marker anywhere, it is the last 20
lines of the noise-filtered text. -/
theorem claim_c7_summary (raw : List Char) :
    (∀ i, altAt (noiseFilter raw) i → (∀ j, j < i → ¬ altAt (noiseFilter raw) j) →
        summaryBlock (noiseFilter raw) = jsTrim ((noiseFilter raw).drop i))
    ∧ ((∀ i, ¬ altAt (noiseFilter raw) i) →
        summaryBlock (noiseFilter raw) = joinNL (lastN 20 (splitNL (noiseFilter raw)))) := by
  constructor
  · intro i hAt hmin
    obtain ⟨hfirst, hidx⟩ := altFirst_min (noiseFilter raw) i hAt hmin
    unfold summaryBlock
    rw [hfirst]
    simp only [jsIndexOf, hidx]
    unfold jsSliceFrom
    rw [if_neg (by omega)]
    have htn : ((i : Nat) : Int).toNat = i := by omega
    rw [htn]
  · intro h
    unfold summaryBlock
    rw [(altFirst_none_iff _).mpr h]
    have hft : jsTrim (noiseFilter raw) = noiseFilter raw := by
      unfold noiseFilter
      exact jsTrim_idem _
    rw [hft]

theorem altAt_bound {f : List Char} {i : Nat} (h : f.length ≤ i) : ¬ altAt f i := by
  intro hAt
  have hd : f.drop i = [] := List.drop_eq_nil_of_le h
  rcases hAt with h1 | h1 <;> rw [hd] at h1 <;> revert h1 <;> decide

theorem not_altAt_all {f : List Char} (h : ∀ i, i < f.length → ¬ altAt f i) :
    ∀ i, ¬ altAt f i := fun i =>
  if hi : i < f.length then h i hi else altAt_bound (by omega)

theorem claim_c7_witness :
    summaryBlock (noiseFilter ("head\nTotal Files: 3".data))
        = jsTrim ((noiseFilter ("head\nTotal Files: 3".data)).drop 5)
    ∧ summaryBlock (noiseFilter ("l1\nl2".data))
        = joinNL (lastN 20 (splitNL (noiseFilter ("l1\nl2".data)))) :=
  ⟨(claim_c7_summary ("head\nTotal Files: 3".data)).1 5 (by decide) (by decide),
   (claim_c7_summary ("l1\nl2".data)).2 (not_altAt_all (by decide))⟩

/-! ## C8: the searchCodebase boundary -/

/-- C8: `searchCodebase` always produces a textual response — a missing
codebase file, an empty `file` parameter, and an unmatched path each
yield their message, and a successful lookup yields the wrapped snippet;
being a total function of the file-system snapshot, no case escapes as
an error. -/
theorem claim_c8_total_response (fs : Fs) (args : SearchArgs) :
    (fsRead fs (jsOrDefault args.codebase ("project.codebase".data)) = none →
      searchCodebase fs args
        = ("Codebase file not found: ".data) ++ jsOrDefault args.codebase ("project.codebase".data))
    ∧ (∀ raw, fsRead fs (jsOrDefault args.codebase ("project.codebase".data)) = some raw →
        args.file = [] →
        searchCodebase fs args = ("Parameter \x27file\x27 is required.".data))
    ∧ (∀ raw, fsRead fs (jsOrDefault args.codebase ("project.codebase".data)) = some raw →
        args.file ≠ [] → findRecord (parseBundle raw) args.file = none →
        searchCodebase fs args
          = ("File \"".data) ++ args.file ++ ("\" not found in codebase.".data))
    ∧ (∀ raw r, fsRead fs (jsOrDefault args.codebase ("project.codebase".data)) = some raw →
        args.file ≠ [] → findRecord (parseBundle raw) args.file = some r →
        searchCodebase fs args = wrapSnippet r.path (extractDefaulted r args.maxLines)) := by
  refine ⟨?_, ?_, ?_, ?_⟩
  · intro h
    simp only [searchCodebase, h]
  · intro raw h hfile
    have hempty : args.file.isEmpty = true := by
      rw [hfile]
      rfl
    simp only [searchCodebase, h, hempty, if_true]
  · intro raw h hfile hfind
    have hempty : args.file.isEmpty = false := by
      cases hf : args.file with
      | nil => exact absurd hf hfile
      | cons a as => rfl
    simp only [searchCodebase, h, hempty, Bool.false_eq_true, if_false, hfind]
  · intro raw r h hfile hfind
    have hempty : args.file.isEmpty = false := by
      cases hf : args.file with
      | nil => exact absurd hf hfile
      | cons a as => rfl
    simp only [searchCodebase, h, hempty, Bool.false_eq_true, if_false, hfind]

theorem claim_c8_witness :
    searchCodebase [] ⟨("a.ts".data), none, none⟩
        = ("Codebase file not found: ".data)
          ++ jsOrDefault (none : Option (List Char)) ("project.codebase".data)
    ∧ searchCodebase [(("project.codebase".data), ("# File: a\nx".data))] ⟨[], none, none⟩
        = ("Parameter \x27file\x27 is required.".data)
    ∧ searchCodebase [(("project.codebase".data), ("# File: a\nx".data))]
          ⟨("zz".data), none, none⟩
        = ("File \"".data) ++ ("zz".data) ++ ("\" not found in codebase.".data)
    ∧ searchCodebase [(("project.codebase".data), ("# File: a\nx".data))]
          ⟨("a".data), none, none⟩
        = wrapSnippet ("a".data) (extractDefaulted ⟨("a".data), [("x".data)]⟩ none) :=
  ⟨(claim_c8_total_response [] ⟨("a.ts".data), none, none⟩).1 (by decide),
   (claim_c8_total_response _ _).2.1 ("# File: a\nx".data) (by decide) rfl,
   (claim_c8_total_response _ _).2.2.1 ("# File: a\nx".data) (by decide) (by decide) (by decide),
   (claim_c8_total_response _ _).2.2.2 ("# File: a\nx".data) ⟨("a".data), [("x".data)]⟩
     (by decide) (by decide) (by decide)⟩

end CB
